import Mathlib

/-!
Shallow embedding of the pIRS bash-token-tracker core (src/index.ts):
command classification (`extractBaseCommand`, `extractRunnerCommand`,
`classifyCommand`, `COMMAND_GROUPS`), token estimation (`estimateTokens`),
and the `/pirs` grouped-summary aggregation.

Command strings are modelled as `List Char` where regex scanning is
involved.  Each JS regex of the source is compiled to the deterministic
scanning function it denotes; the greedy/backtracking behaviour is resolved
clause by clause in the comments next to each definition.  JS numbers are
modelled as ℕ/ℚ, with an explicit NaN/Infinity marker (`JSNum`) for the
percentage division, which in JS is IEEE division and yields NaN on 0/0.
The iterated prefix-stripping loops are written with an explicit fuel
argument equal to the string length; every successful iteration removes at
least one character, so the fuel never runs out and the loop computes the
same fixpoint the regex `+` repetition does.
-/

/-- JS `\s` / `trim` whitespace, restricted to the characters that can occur
in the command strings this development reasons about (ASCII plus NBSP). -/
def jsWhitespace (c : Char) : Bool :=
  c = ' ' || c = '\t' || c = '\n' || c = '\r' || c = '\x0b' || c = '\x0c' || c = '\u00A0'

/-- JS `\w`: ASCII letters, digits, underscore. -/
def isWordChar (c : Char) : Bool :=
  ('a' ≤ c && c ≤ 'z') || ('A' ≤ c && c ≤ 'Z') || ('0' ≤ c && c ≤ '9') || c = '_'

/-- The character class `[\d^~>=<.*]` of the version-suffix regex in
`extractRunnerCommand` (src/index.ts:74). -/
def isVerChar (c : Char) : Bool :=
  ('0' ≤ c && c ≤ '9') || c = '^' || c = '~' || c = '>' || c = '=' || c = '<' ||
    c = '.' || c = '*'

/-- The character class `[\w@/.:-]` of the runner-subcommand regex
(src/index.ts:71). -/
def isTokenChar (c : Char) : Bool :=
  isWordChar c || c = '@' || c = '/' || c = '.' || c = ':' || c = '-'

/-- JS `String.prototype.trim` on both ends. -/
def trimL (l : List Char) : List Char :=
  ((l.dropWhile jsWhitespace).reverse.dropWhile jsWhitespace).reverse

/-- Split a string at its first `;` or `&`: returns the characters before the
delimiter and the characters after it.  `none` when no delimiter occurs.
This is where `[^;&]+[;&]` of the cd-stripping regex ends: the class
`[^;&]` cannot cross a delimiter, so the greedy run stops exactly at the
first `;`/`&`, which `[;&]` then consumes (a single character — this is why
only one `&` of a `&&` is consumed). -/
def splitAtDelim : List Char → Option (List Char × List Char)
  | [] => none
  | c :: cs =>
    if c = ';' || c = '&' then some ([], cs)
    else
      match splitAtDelim cs with
      | some (pre, post) => some (c :: pre, post)
      | none => none

/-- One clause of the anchored regex `^(cd\s+[^;&]+[;&]\s*)+`
(src/index.ts:63), without its trailing `\s*`: literal `cd`, then `\s+[^;&]+`
up to the first delimiter, then one `[;&]`.  `\s+[^;&]+` matches the segment
before the first delimiter iff that segment starts with a whitespace
character and has length at least two (whitespace is itself in `[^;&]`, so
any longer split works; backtracking adds nothing else). -/
def stripCdClause (l : List Char) : Option (List Char) :=
  match l with
  | 'c' :: 'd' :: rest =>
    match splitAtDelim rest with
    | some (pre, post) =>
      match pre with
      | c :: _ :: _ => if jsWhitespace c then some post else none
      | _ => none
    | none => none
  | _ => none

/-- The `+` repetition of the cd-stripping regex: strip one clause, consume
the clause's trailing `\s*` (maximal munch — the next clause starts with the
non-whitespace `c`), repeat while a clause matches. -/
def stripCdLoop : Nat → List Char → List Char
  | 0, l => l
  | fuel + 1, l =>
    match stripCdClause l with
    | some post => stripCdLoop fuel (post.dropWhile jsWhitespace)
    | none => l

/-- One clause of the anchored regex `^(\w+=\S+\s+)+` (src/index.ts:65):
maximal `\w+` run, literal `=`, maximal `\S+` run up to the first whitespace,
then the maximal `\s+` run (all maximal-munch: the classes are pairwise
disjoint at each boundary, so no backtracking applies). -/
def stripEnvClause (l : List Char) : Option (List Char) :=
  if (l.takeWhile isWordChar).isEmpty then none
  else
    match l.dropWhile isWordChar with
    | '=' :: r2 =>
      if (r2.takeWhile (fun c => !jsWhitespace c)).isEmpty then none
      else
        let r3 := r2.dropWhile (fun c => !jsWhitespace c)
        if (r3.takeWhile jsWhitespace).isEmpty then none
        else some (r3.dropWhile jsWhitespace)
    | _ => none

/-- The `+` repetition of the env-stripping regex. -/
def stripEnvLoop : Nat → List Char → List Char
  | 0, l => l
  | fuel + 1, l =>
    match stripEnvClause l with
    | some rest => stripEnvLoop fuel rest
    | none => l

/-- `extractBaseCommand` (src/index.ts:60-67): trim, strip leading
`cd …;`/`cd …&` clauses, strip leading `WORD=value` assignments, trim. -/
def extractBaseCommandL (l : List Char) : List Char :=
  trimL (stripEnvLoop l.length (stripCdLoop l.length (trimL l)))

/-- String-level wrapper for `extractBaseCommand`. -/
def extractBaseCommand (s : String) : String :=
  String.mk (extractBaseCommandL s.data)

/-- Match a literal at the start of a string, returning the remainder. -/
def dropLit : List Char → List Char → Option (List Char)
  | [], l => some l
  | _ :: _, [] => none
  | p :: ps, c :: cs => if c = p then dropLit ps cs else none

/-- Attempt the regex `runner\s+(?:--\s+)?([\w@/.:-]+)` (src/index.ts:71) at
the start of `l`, returning the captured token.  `\s+` is maximal munch (the
following alternatives start with non-whitespace `-` or a token character);
the optional `--\s+` group is tried greedily and abandoned if the token run
after it is empty — in that case `[\w@/.:-]+` restarts at the `--` itself,
since `-` is in the token class. -/
def matchRunnerAt (runner l : List Char) : Option (List Char) :=
  match dropLit runner l with
  | none => none
  | some r1 =>
    if (r1.takeWhile jsWhitespace).isEmpty then none
    else
      let r2 := r1.dropWhile jsWhitespace
      let withSep : Option (List Char) :=
        match r2 with
        | '-' :: '-' :: r3 =>
          if (r3.takeWhile jsWhitespace).isEmpty then none
          else
            let tok := (r3.dropWhile jsWhitespace).takeWhile isTokenChar
            if tok.isEmpty then none else some tok
        | _ => none
      match withSep with
      | some tok => some tok
      | none =>
        let tok := r2.takeWhile isTokenChar
        if tok.isEmpty then none else some tok

/-- Unanchored leftmost search of the runner regex, as JS `String.match`
performs for a regex without `^`. -/
def searchRunner (runner : List Char) : List Char → Option (List Char)
  | [] => none
  | c :: cs =>
    match matchRunnerAt runner (c :: cs) with
    | some tok => some tok
    | none => searchRunner runner cs

/-- `pkg.replace(/@[\d^~>=<.*]+$/, "")` (src/index.ts:74): remove the suffix
starting at the leftmost `@` that is followed by a non-empty run of version
characters reaching the end of the string. -/
def stripVersion : List Char → List Char
  | [] => []
  | c :: cs =>
    if c = '@' && !cs.isEmpty && cs.all isVerChar then []
    else c :: stripVersion cs

/-- `extractRunnerCommand` (src/index.ts:70-76): find the runner-subcommand
token, then strip a trailing version suffix.  Returns `none` when the regex
does not match anywhere (JS `null`); the returned token may be empty after
version stripping (JS empty string, which is falsy). -/
def extractRunnerCommandL (base runner : List Char) : Option (List Char) :=
  (searchRunner runner base).map stripVersion

/-- The runner tokens tried in order by `classifyCommand` (src/index.ts:82). -/
def runners : List String := ["npx", "bunx", "uvx"]

/-- JS `String.prototype.includes`: substring containment. -/
def isSubstrOf (needle : List Char) : List Char → Bool
  | [] => needle.isEmpty
  | c :: cs => needle.isPrefixOf (c :: cs) || isSubstrOf needle cs

/-- `COMMAND_GROUPS` (src/index.ts:32-57), verbatim: ordered entries of
(group name, match patterns). -/
def COMMAND_GROUPS : List (String × List String) := [
  ("pytest", ["pytest", "python3 -m pytest", "python -m pytest", "uv run pytest",
    "uv run python -m pytest"]),
  ("vitest", ["vitest"]),
  ("jest", ["jest"]),
  ("tsc", ["tsc"]),
  ("eslint", ["eslint"]),
  ("npm install", ["npm install", "npm ci", "pnpm install", "pnpm i", "bun install",
    "bun add"]),
  ("npm run", ["npm run", "pnpm run", "pnpm exec", "bun run"]),
  ("npm", ["npm ", "pnpm ", "bun "]),
  ("pip", ["pip install", "pip3 install", "uv add", "uv pip install", "uv pip compile",
    "uv pip sync"]),
  ("uv", ["uv run", "uv sync", "uv lock", "uv venv", "uv init", "uv remove", "uv tree",
    "uv "]),
  ("git", ["git "]),
  ("grep/rg", ["grep ", "rg "]),
  ("find", ["find "]),
  ("cat/head/tail", ["cat ", "head ", "tail "]),
  ("ls", ["ls "]),
  ("file ops", ["cp ", "mv ", "mkdir ", "rm ", "rmdir ", "chmod ", "chown ", "ln ",
    "touch "]),
  ("docker", ["docker "]),
  ("curl/wget", ["curl ", "wget "]),
  ("cargo test", ["cargo test"]),
  ("cargo fmt", ["cargo fmt"]),
  ("cargo clippy", ["cargo clippy"]),
  ("cargo", ["cargo "]),
  ("go", ["go build", "go test", "go run"]),
  ("make", ["make "])]

/-- The body of `classifyCommand` (src/index.ts:78-99) after the base command
has been extracted: first runner whose `"<runner> "` prefix matches wins
(a non-empty resolved subcommand yields `"<runner> <sub>"`, an empty or
missing one the bare runner name, mirroring JS falsiness of `""` and
`null`); otherwise the first table entry with a pattern contained in the
base wins; otherwise `"other"`. -/
def classifyBase (base : List Char) : String :=
  match runners.find? (fun r => (r.data ++ [' ']).isPrefixOf base) with
  | some r =>
    match extractRunnerCommandL base r.data with
    | some tok => if tok.isEmpty then r else r ++ " " ++ String.mk tok
    | none => r
  | none =>
    match COMMAND_GROUPS.find? (fun e => e.2.any (fun p => isSubstrOf p.data base)) with
    | some e => e.1
    | none => "other"

/-- `classifyCommand` (src/index.ts:78-99). -/
def classifyCommand (command : String) : String :=
  classifyBase (extractBaseCommandL command.data)

/-- `CHARS_PER_TOKEN` (src/index.ts:18). -/
def CHARS_PER_TOKEN : ℕ := 4

/-- `estimateTokens` (src/index.ts:101-103): `Math.ceil(chars / 4)`.  The
float division by 4 is exact for every realisable character count (far below
2^53), so the JS value is the exact rational ceiling.  The rational
`chars / 4` is built with `mkRat` (the same value as `(chars : ℚ) / 4`,
see `estimateTokens` facts below) so that the definition evaluates by
kernel reduction. -/
def estimateTokens (chars : ℕ) : ℕ :=
  (⌈(mkRat chars CHARS_PER_TOKEN : ℚ)⌉).toNat

/-- A `BashRecord` (src/index.ts:20-27). -/
structure BashRecord where
  timestamp : ℕ
  command : String
  outputChars : ℕ
  estimatedTokens : ℕ
  truncated : Bool
  isError : Bool
deriving DecidableEq

/-- Record construction as the `tool_result` handler performs it
(src/index.ts:171-178): `estimatedTokens` is derived from `outputChars`. -/
def recordFor (ts : ℕ) (cmd : String) (chars : ℕ) (trunc err : Bool) : BashRecord :=
  { timestamp := ts, command := cmd, outputChars := chars,
    estimatedTokens := estimateTokens chars, truncated := trunc, isError := err }

/-- Per-group aggregate of the summary handler (src/index.ts:251). -/
structure GroupData where
  count : ℕ
  totalTokens : ℕ
  totalChars : ℕ
  commands : List String
deriving DecidableEq

/-- The default `{ count: 0, totalTokens: 0, totalChars: 0, commands: [] }`
used when a group is seen for the first time (src/index.ts:255). -/
def GroupData.empty : GroupData := ⟨0, 0, 0, []⟩

/-- Example-command truncation (src/index.ts:260). -/
def truncCmd60 (cmd : String) : String :=
  if cmd.length > 60 then String.mk (cmd.data.take 57) ++ "..." else cmd

/-- One record folded into a group's aggregate (src/index.ts:256-262). -/
def bump (d : GroupData) (r : BashRecord) (showCommands : Bool) : GroupData :=
  { count := d.count + 1,
    totalTokens := d.totalTokens + r.estimatedTokens,
    totalChars := d.totalChars + r.outputChars,
    commands :=
      if showCommands ∧ d.commands.length < 3 then d.commands ++ [truncCmd60 r.command]
      else d.commands }

/-- `groups.set(group, existing)` over a JS `Map` modelled as an
insertion-ordered association list: an existing key is updated in place,
a new key is appended at the end. -/
def updateGroup (m : List (String × GroupData)) (k : String) (r : BashRecord)
    (sc : Bool) : List (String × GroupData) :=
  match m with
  | [] => [(k, bump GroupData.empty r sc)]
  | (key, d) :: rest =>
    if key = k then (key, bump d r sc) :: rest
    else (key, d) :: updateGroup rest k r sc

/-- The grouping fold of the summary handler (src/index.ts:253-264). -/
def buildGroups (records : List BashRecord) (sc : Bool) : List (String × GroupData) :=
  records.foldl (fun m r => updateGroup m (classifyCommand r.command) r sc) []

/-- Stable insertion step for the descending-by-`totalTokens` sort: the new
element goes before the first element it strictly beats, i.e. before the
first element whose key is ≤ its own. -/
def insertDesc (x : String × GroupData) :
    List (String × GroupData) → List (String × GroupData)
  | [] => [x]
  | y :: ys =>
    if y.2.totalTokens ≤ x.2.totalTokens then x :: y :: ys else y :: insertDesc x ys

/-- `[...groups.entries()].sort((a, b) => b[1].totalTokens - a[1].totalTokens)`
(src/index.ts:267).  JS `Array.prototype.sort` is stable and the comparator
is a consistent total preorder, so the result is the unique permutation that
is sorted descending by `totalTokens` and keeps ties in input order — which
is what this insertion sort computes. -/
def sortGroups : List (String × GroupData) → List (String × GroupData)
  | [] => []
  | x :: xs => insertDesc x (sortGroups xs)

/-- `records.reduce((sum, r) => sum + r.estimatedTokens, 0)`
(src/index.ts:271). -/
def grandTotal (records : List BashRecord) : ℕ :=
  records.foldl (fun s r => s + r.estimatedTokens) 0

/-- A JS number as produced by the percentage computation: NaN, Infinity, or
an exact rational value. -/
inductive JSNum where
  | nan : JSNum
  | inf : JSNum
  | val : ℚ → JSNum
deriving DecidableEq

/-- `Number.prototype.toFixed(1)` as a rational: the integer n minimising
the distance of n/10 to the value, larger n on ties, i.e. ⌊10q + 1/2⌋/10. -/
def toFixed1 (q : ℚ) : ℚ := ((⌊q * 10 + 1 / 2⌋ : ℤ) : ℚ) / 10

/-- `((data.totalTokens / totalTokens) * 100).toFixed(1)` (src/index.ts:274)
with JS division semantics: 0/0 is NaN, t/0 with t ≠ 0 is Infinity.  For the
values reached here the float computation is modelled by exact rational
arithmetic.  For g ≠ 0 the value is `toFixed1 ((t / g) * 100)`, written out
as `⌊(2000t + g) / (2g)⌋ / 10` with the inner rational built by `mkRat` so
that the definition evaluates by kernel reduction; the lemma `pctOf_spec`
below certifies the algebraic identity. -/
def pctOf (t g : ℕ) : JSNum :=
  if g = 0 then (if t = 0 then JSNum.nan else JSNum.inf)
  else JSNum.val (mkRat (⌊(mkRat (2000 * t + g) (2 * g) : ℚ)⌋) 10)

/-- The `/pirs` summary view (src/index.ts:207-210 and 251-275): the empty
record list short-circuits to the "no data" notification (`none`) before any
aggregation; otherwise the grouped, sorted entries with their percentage of
the grand total. -/
def summaryReport (records : List BashRecord) :
    Option (List (String × GroupData × JSNum)) :=
  if records.isEmpty then none
  else
    some ((sortGroups (buildGroups records false)).map
      (fun e => (e.1, e.2, pctOf e.2.totalTokens (grandTotal records))))

/-- First-encounter order of keys: walk the key sequence, appending each key
the first time it is seen. -/
def firstOccsAux (acc : List String) : List String → List String
  | [] => acc
  | k :: l => firstOccsAux (if k ∈ acc then acc else acc ++ [k]) l

/-- The keys of a sequence in the order of their first occurrence. -/
def firstOccs (l : List String) : List String := firstOccsAux [] l

/-! ### Helper lemmas -/

/-- `mkRat` is the rational division of the casts of its arguments. -/
theorem mkRat_int_div (z : ℤ) (b : ℕ) : (mkRat z b : ℚ) = (z : ℚ) / (b : ℚ) := by
  rw [Rat.mkRat_eq_divInt, Rat.divInt_eq_div]
  norm_num

/-- For a non-zero grand total, `pctOf` is exactly
`((t / g) * 100).toFixed(1)` over exact rationals. -/
theorem pctOf_spec (t g : ℕ) (hg : g ≠ 0) :
    pctOf t g = JSNum.val (toFixed1 ((t : ℚ) / (g : ℚ) * 100)) := by
  have hg' : (g : ℚ) ≠ 0 := Nat.cast_ne_zero.mpr hg
  have h1 : (mkRat (2000 * (t : ℤ) + (g : ℤ)) (2 * g) : ℚ) =
      (t : ℚ) / (g : ℚ) * 100 * 10 + 1 / 2 := by
    rw [mkRat_int_div]
    push_cast
    field_simp
    ring
  unfold pctOf
  rw [if_neg hg, mkRat_int_div, h1]
  unfold toFixed1
  norm_num

/-- Membership in an `insertDesc` result. -/
theorem mem_insertDesc (x y : String × GroupData) (l : List (String × GroupData)) :
    y ∈ insertDesc x l ↔ y = x ∨ y ∈ l := by
  induction l with
  | nil => simp [insertDesc]
  | cons z zs ih =>
    by_cases h : z.2.totalTokens ≤ x.2.totalTokens
    · simp [insertDesc, if_pos h]
    · simp only [insertDesc, if_neg h, List.mem_cons, ih]
      tauto

/-- `insertDesc` is a permutation of consing. -/
theorem insertDesc_perm (x : String × GroupData) (l : List (String × GroupData)) :
    List.Perm (insertDesc x l) (x :: l) := by
  induction l with
  | nil => simp [insertDesc]
  | cons z zs ih =>
    by_cases h : z.2.totalTokens ≤ x.2.totalTokens
    · simp [insertDesc, if_pos h]
    · rw [show insertDesc x (z :: zs) = z :: insertDesc x zs from by
        simp [insertDesc, if_neg h]]
      exact (ih.cons z).trans (List.Perm.swap x z zs)

/-- `sortGroups` permutes its input. -/
theorem sortGroups_perm (l : List (String × GroupData)) : List.Perm (sortGroups l) l := by
  induction l with
  | nil => simp [sortGroups]
  | cons x xs ih => exact (insertDesc_perm x (sortGroups xs)).trans (ih.cons x)

/-- `insertDesc` preserves the sorted-descending invariant. -/
theorem pairwise_insertDesc (x : String × GroupData) (l : List (String × GroupData))
    (h : l.Pairwise (fun a b => b.2.totalTokens ≤ a.2.totalTokens)) :
    (insertDesc x l).Pairwise (fun a b => b.2.totalTokens ≤ a.2.totalTokens) := by
  induction l with
  | nil => simp [insertDesc]
  | cons z zs ih =>
    rcases List.pairwise_cons.mp h with ⟨hz, hzs⟩
    by_cases hc : z.2.totalTokens ≤ x.2.totalTokens
    · rw [show insertDesc x (z :: zs) = x :: z :: zs from by simp [insertDesc, if_pos hc]]
      refine List.pairwise_cons.mpr ⟨?_, h⟩
      intro b hb
      rcases List.mem_cons.mp hb with rfl | hb
      · exact hc
      · exact le_trans (hz b hb) hc
    · rw [show insertDesc x (z :: zs) = z :: insertDesc x zs from by
        simp [insertDesc, if_neg hc]]
      refine List.pairwise_cons.mpr ⟨?_, ih hzs⟩
      intro b hb
      rcases (mem_insertDesc x b zs).mp hb with rfl | hb
      · exact le_of_lt (lt_of_not_le hc)
      · exact hz b hb

/-- The output of `sortGroups` is sorted descending by `totalTokens`. -/
theorem sortGroups_pairwise (l : List (String × GroupData)) :
    (sortGroups l).Pairwise (fun a b => b.2.totalTokens ≤ a.2.totalTokens) := by
  induction l with
  | nil => simp [sortGroups]
  | cons x xs ih => exact pairwise_insertDesc x (sortGroups xs) ih

/-- Within one `totalTokens` class, `insertDesc` behaves exactly like
consing: the inserted element passes only elements of strictly larger key. -/
theorem filter_tok_insertDesc (x : String × GroupData) (l : List (String × GroupData))
    (n : ℕ) :
    (insertDesc x l).filter (fun e => e.2.totalTokens == n) =
      ((x :: l).filter (fun e => e.2.totalTokens == n)) := by
  induction l with
  | nil => simp [insertDesc]
  | cons z zs ih =>
    by_cases hc : z.2.totalTokens ≤ x.2.totalTokens
    · simp [insertDesc, if_pos hc]
    · have hzx : x.2.totalTokens < z.2.totalTokens := lt_of_not_le hc
      by_cases hx : x.2.totalTokens = n
      · have hz : ¬ z.2.totalTokens = n := by omega
        simp only [insertDesc, if_neg hc, List.filter_cons, ih]
        simp [hx, hz]
      · simp only [insertDesc, if_neg hc, List.filter_cons, ih]
        by_cases hz : z.2.totalTokens = n <;> simp [hx, hz]

/-- Stability of `sortGroups`: each `totalTokens` class keeps its input
order. -/
theorem sortGroups_filter_tok (l : List (String × GroupData)) (n : ℕ) :
    (sortGroups l).filter (fun e => e.2.totalTokens == n) =
      l.filter (fun e => e.2.totalTokens == n) := by
  induction l with
  | nil => simp [sortGroups]
  | cons x xs ih =>
    rw [sortGroups, filter_tok_insertDesc]
    simp only [List.filter_cons, ih]

/-- Keys after a `updateGroup` step: an existing key keeps its position, a
new key is appended. -/
theorem keys_updateGroup (m : List (String × GroupData)) (k : String) (r : BashRecord)
    (sc : Bool) :
    (updateGroup m k r sc).map Prod.fst =
      if k ∈ m.map Prod.fst then m.map Prod.fst else m.map Prod.fst ++ [k] := by
  induction m with
  | nil => simp [updateGroup]
  | cons e rest ih =>
    obtain ⟨key, d⟩ := e
    by_cases h : key = k
    · subst h
      simp [updateGroup]
    · simp only [updateGroup, if_neg h, List.map_cons, ih, List.mem_cons]
      have : ¬ k = key := fun hk => h hk.symm
      by_cases hmem : k ∈ rest.map Prod.fst <;> simp [this, hmem]

/-- The grouping fold visits keys in first-encounter order. -/
theorem keys_foldl (records : List BashRecord) (sc : Bool)
    (m : List (String × GroupData)) :
    ((records.foldl (fun m r => updateGroup m (classifyCommand r.command) r sc) m).map
        Prod.fst) =
      firstOccsAux (m.map Prod.fst) (records.map (fun r => classifyCommand r.command)) := by
  induction records generalizing m with
  | nil => simp [firstOccsAux]
  | cons r rest ih =>
    simp only [List.foldl_cons, List.map_cons, firstOccsAux, ih, keys_updateGroup]

/-- The keys of `buildGroups` are the classified commands in first-encounter
order. -/
theorem keys_buildGroups (records : List BashRecord) (sc : Bool) :
    (buildGroups records sc).map Prod.fst =
      firstOccs (records.map (fun r => classifyCommand r.command)) := by
  have h := keys_foldl records sc []
  simpa [buildGroups, firstOccs] using h

/-- One `updateGroup` step adds its record's contribution to any additive
projection of the aggregates. -/
theorem sum_updateGroup (f : GroupData → ℕ) (g : BashRecord → ℕ) (sc : Bool)
    (hb : ∀ d r, f (bump d r sc) = f d + g r) (he : f GroupData.empty = 0)
    (m : List (String × GroupData)) (k : String) (r : BashRecord) :
    ((updateGroup m k r sc).map (fun e => f e.2)).sum =
      (m.map (fun e => f e.2)).sum + g r := by
  induction m with
  | nil => simp [updateGroup, hb, he]
  | cons e rest ih =>
    obtain ⟨key, d⟩ := e
    by_cases h : key = k
    · rw [show updateGroup ((key, d) :: rest) k r sc = (key, bump d r sc) :: rest from by
        simp [updateGroup, h]]
      simp only [List.map_cons, List.sum_cons, hb]
      omega
    · rw [show updateGroup ((key, d) :: rest) k r sc =
          (key, d) :: updateGroup rest k r sc from by simp [updateGroup, h]]
      simp only [List.map_cons, List.sum_cons, ih]
      omega

/-- The grouping fold conserves any additive projection of the aggregates. -/
theorem sum_foldl (f : GroupData → ℕ) (g : BashRecord → ℕ) (sc : Bool)
    (hb : ∀ d r, f (bump d r sc) = f d + g r) (he : f GroupData.empty = 0)
    (records : List BashRecord) (m : List (String × GroupData)) :
    (((records.foldl (fun m r => updateGroup m (classifyCommand r.command) r sc) m).map
        (fun e => f e.2)).sum) =
      (m.map (fun e => f e.2)).sum + (records.map g).sum := by
  induction records generalizing m with
  | nil => simp
  | cons r rest ih =>
    simp only [List.foldl_cons, List.map_cons, List.sum_cons, ih,
      sum_updateGroup f g sc hb he]
    omega

/-- Conservation over `buildGroups` for any additive projection. -/
theorem sum_buildGroups (f : GroupData → ℕ) (g : BashRecord → ℕ) (sc : Bool)
    (hb : ∀ d r, f (bump d r sc) = f d + g r) (he : f GroupData.empty = 0)
    (records : List BashRecord) :
    ((buildGroups records sc).map (fun e => f e.2)).sum = (records.map g).sum := by
  have h := sum_foldl f g sc hb he records []
  simpa [buildGroups] using h

/-- `grandTotal` is the sum of the per-record token estimates. -/
theorem grandTotal_eq_sum (records : List BashRecord) :
    grandTotal records = (records.map (fun r => r.estimatedTokens)).sum := by
  have h : ∀ (l : List BashRecord) (n : ℕ),
      l.foldl (fun s r => s + r.estimatedTokens) n = n + (l.map
        (fun r => r.estimatedTokens)).sum := by
    intro l
    induction l with
    | nil => simp
    | cons r rest ih =>
      intro n
      simp only [List.foldl_cons, List.map_cons, List.sum_cons, ih]
      omega
  simpa [grandTotal] using h records 0

/-- A `find?` over an appended list returns an element of the first part as
soon as the first part contains a satisfying element. -/
theorem find?_append_left {α : Type} (p : α → Bool) (l1 l2 : List α)
    (h : ∃ x ∈ l1, p x = true) : ∃ y ∈ l1, List.find? p (l1 ++ l2) = some y := by
  induction l1 with
  | nil => simp at h
  | cons a t ih =>
    by_cases ha : p a = true
    · exact ⟨a, List.mem_cons_self a t, by simp [List.find?, ha]⟩
    · rcases h with ⟨x, hx, hpx⟩
      rcases List.mem_cons.mp hx with rfl | hx
      · exact absurd hpx ha
      · rcases ih ⟨x, hx, hpx⟩ with ⟨y, hy, hfind⟩
        refine ⟨y, List.mem_cons_of_mem a hy, ?_⟩
        simpa [List.find?, ha] using hfind

/-- `find?` skips an appended first part none of whose elements satisfy the
predicate. -/
theorem find?_append_of_none {α : Type} (p : α → Bool) (l1 l2 : List α)
    (h : ∀ x ∈ l1, p x = false) : List.find? p (l1 ++ l2) = List.find? p l2 := by
  induction l1 with
  | nil => simp
  | cons a t ih =>
    have ha : p a = false := h a (List.mem_cons_self a t)
    rw [List.cons_append, List.find?_cons_of_neg _ (by simp [ha]), ih]
    intro x hx
    exact h x (List.mem_cons_of_mem a hx)

/-! ### Claim theorems -/

/-- C2: `extractBaseCommand` on a `&&`-chained cd prefix.  Each regex clause
consumes a single `[;&]` delimiter, so on `"cd a && cd b && ls"` the strip
stops at the second `&` of the first `&&` and returns `"& cd b && ls"`
instead of removing every chained cd clause; a `;`-chained prefix is
stripped in full. -/
theorem extract_base_cd_chain :
    extractBaseCommand "cd a && cd b && ls" = "& cd b && ls" ∧
    extractBaseCommand "cd a; cd b; ls" = "ls" :=
  ⟨by decide, by decide⟩

/-- C3: the end-to-end scenario: records `(git status, 40)`, `(pytest -v,
2000)`, `(echo hi, 8)` classify to `git`/`pytest`/`other` with token
estimates 10/500/2, grand total 512, and the grouped summary is ordered
pytest (500 tokens, 97.7%), git (10 tokens, 2.0%), other (2 tokens, 0.4%). -/
theorem end_to_end_scenario :
    classifyCommand "git status" = "git" ∧
    classifyCommand "pytest -v" = "pytest" ∧
    classifyCommand "echo hi" = "other" ∧
    (recordFor 0 "git status" 40 false false).estimatedTokens = 10 ∧
    (recordFor 1 "pytest -v" 2000 false false).estimatedTokens = 500 ∧
    (recordFor 2 "echo hi" 8 false false).estimatedTokens = 2 ∧
    grandTotal [recordFor 0 "git status" 40 false false,
      recordFor 1 "pytest -v" 2000 false false,
      recordFor 2 "echo hi" 8 false false] = 512 ∧
    summaryReport [recordFor 0 "git status" 40 false false,
      recordFor 1 "pytest -v" 2000 false false,
      recordFor 2 "echo hi" 8 false false] =
      some [("pytest", ⟨1, 500, 2000, []⟩, JSNum.val (mkRat 977 10)),
        ("git", ⟨1, 10, 40, []⟩, JSNum.val 2),
        ("other", ⟨1, 2, 8, []⟩, JSNum.val (mkRat 2 5))] := by
  decide

/-- C4: the grouped summary conserves totals: over the sorted group list,
the `totalTokens` sum to the records' `estimatedTokens` sum, the
`totalChars` to the `outputChars` sum, and the counts to the number of
records — each record lands in exactly one category. -/
theorem grouped_totals_conserved (records : List BashRecord) :
    ((sortGroups (buildGroups records false)).map (fun e => e.2.totalTokens)).sum =
      (records.map (fun r => r.estimatedTokens)).sum ∧
    ((sortGroups (buildGroups records false)).map (fun e => e.2.totalChars)).sum =
      (records.map (fun r => r.outputChars)).sum ∧
    ((sortGroups (buildGroups records false)).map (fun e => e.2.count)).sum =
      records.length := by
  have hperm := sortGroups_perm (buildGroups records false)
  refine ⟨?_, ?_, ?_⟩
  · rw [(hperm.map (fun e => e.2.totalTokens)).sum_eq]
    exact sum_buildGroups (fun d => d.totalTokens) (fun r => r.estimatedTokens) false
      (fun d r => rfl) rfl records
  · rw [(hperm.map (fun e => e.2.totalChars)).sum_eq]
    exact sum_buildGroups (fun d => d.totalChars) (fun r => r.outputChars) false
      (fun d r => rfl) rfl records
  · rw [(hperm.map (fun e => e.2.count)).sum_eq,
      sum_buildGroups (fun d => d.count) (fun _ => 1) false (fun d r => rfl) rfl records]
    simp

/-- C5: the grouped summary is sorted by `totalTokens` descending, the sort
is stable (each `totalTokens` class keeps the order of the grouping fold),
and the grouping fold lists categories in the order their first record was
encountered. -/
theorem grouped_sort_stable (records : List BashRecord) :
    (sortGroups (buildGroups records false)).Pairwise
      (fun a b => b.2.totalTokens ≤ a.2.totalTokens) ∧
    (∀ n : ℕ, (sortGroups (buildGroups records false)).filter
        (fun e => e.2.totalTokens == n) =
      (buildGroups records false).filter (fun e => e.2.totalTokens == n)) ∧
    (buildGroups records false).map Prod.fst =
      firstOccs (records.map (fun r => classifyCommand r.command)) :=
  ⟨sortGroups_pairwise _, fun n => sortGroups_filter_tok _ n, keys_buildGroups records false⟩

/-- C1 (counterexample): a non-empty record sequence whose grand total of
`estimatedTokens` is zero (one record with `outputChars = 0`) does NOT
short-circuit to "no data"; aggregation runs and the percentage is NaN
(JS `0/0`), not 0%. -/
theorem zero_total_nan_counterexample :
    grandTotal [recordFor 0 "echo hi" 0 false false] = 0 ∧
    summaryReport [recordFor 0 "echo hi" 0 false false] ≠ none ∧
    summaryReport [recordFor 0 "echo hi" 0 false false] =
      some [("other", ⟨1, 0, 0, []⟩, JSNum.nan)] := by
  refine ⟨by decide, by decide, by decide⟩

/-- C1 (amended): the "no data" short-circuit fires exactly when the record
sequence is empty; for a non-empty sequence whose grand total of
`estimatedTokens` is zero, aggregation still runs and every category's
percentage is NaN (JS `0/0`), not 0%. -/
theorem summary_no_data_and_zero_total (records : List BashRecord) :
    (summaryReport records = none ↔ records = []) ∧
    (grandTotal records = 0 →
      ∀ e ∈ (summaryReport records).getD [], e.2.2 = JSNum.nan) := by
  constructor
  · constructor
    · intro h
      by_cases he : records.isEmpty
      · exact List.isEmpty_iff.mp he
      · rw [summaryReport, if_neg he] at h
        exact absurd h (by simp)
    · intro h
      subst h
      rfl
  · intro h0 e he
    by_cases hne : records.isEmpty
    · rw [summaryReport, if_pos hne] at he
      simp at he
    · rw [summaryReport, if_neg hne] at he
      simp only [Option.getD_some] at he
      rcases List.mem_map.mp he with ⟨g, hg, rfl⟩
      have hmem : g ∈ buildGroups records false := (sortGroups_perm _).mem_iff.mp hg
      have hsum : ((buildGroups records false).map (fun e => e.2.totalTokens)).sum = 0 := by
        rw [sum_buildGroups (fun d => d.totalTokens) (fun r => r.estimatedTokens) false
          (fun d r => rfl) rfl records, ← grandTotal_eq_sum, h0]
      have hg0 : g.2.totalTokens = 0 := by
        have hx : g.2.totalTokens ∈ (buildGroups records false).map
            (fun e => e.2.totalTokens) := List.mem_map_of_mem _ hmem
        have hle := List.single_le_sum (fun x _ => Nat.zero_le x) _ hx
        omega
      simp [pctOf, hg0, h0]

/-- Witness for the amended C1 theorem, at the one-record all-zero-output
input. -/
theorem summary_no_data_and_zero_total_witness :
    (("other", (⟨1, 0, 0, []⟩ : GroupData), JSNum.nan) :
        String × GroupData × JSNum).2.2 = JSNum.nan :=
  (summary_no_data_and_zero_total [recordFor 0 "echo hi" 0 false false]).2 (by decide)
    ("other", ⟨1, 0, 0, []⟩, JSNum.nan) (by decide)

/-- C7: a runner subcommand token with a trailing `@`-introduced version
suffix (non-empty run of version characters up to the end) loses exactly
that suffix — the separator `@` itself is not a version character, so no
earlier `@` can start a match; in particular the scoped versioned package of
the concrete claim collapses to its bare scoped name. -/
theorem version_suffix_stripped :
    (∀ (pkg ver : List Char), ver ≠ [] → (∀ c ∈ ver, isVerChar c = true) →
      stripVersion (pkg ++ '@' :: ver) = pkg) ∧
    classifyCommand "npx @scope/tool@1.2.3 build" = "npx @scope/tool" := by
  refine ⟨?_, by decide⟩
  intro pkg ver hne hall
  induction pkg with
  | nil =>
    have hempty : ver.isEmpty = false := by
      simpa [List.isEmpty_iff] using hne
    have hcond : (decide (('@' : Char) = '@') && !ver.isEmpty && ver.all isVerChar)
        = true := by
      simp [hempty, List.all_eq_true.mpr hall]
    rw [List.nil_append, stripVersion, if_pos hcond]
  | cons c cs ih =>
    have hfalse : ((cs ++ '@' :: ver).all isVerChar) = false := by
      cases hval : (cs ++ '@' :: ver).all isVerChar
      · rfl
      · have hat := List.all_eq_true.mp hval '@' (by simp)
        exact absurd hat (by decide)
    rw [List.cons_append, stripVersion, if_neg (by simp [hfalse]), ih]

/-- Witness for the C7 theorem at a concrete package and version. -/
theorem version_suffix_stripped_witness :
    stripVersion (['a'] ++ '@' :: ['1']) = ['a'] :=
  version_suffix_stripped.1 ['a'] ['1'] (by decide) (by decide)

/-- C8: classification is total with the `"other"` sentinel: the empty
command classifies to `"other"`, and whenever no runner prefix matches and
no table pattern occurs in the extracted base command, the result is the
literal `"other"`. -/
theorem classify_total_fallback :
    classifyCommand "" = "other" ∧
    ∀ s : String,
      (runners.all fun r =>
        !((r.data ++ [' ']).isPrefixOf (extractBaseCommandL s.data))) = true →
      (COMMAND_GROUPS.all fun e => e.2.all fun p =>
        !(isSubstrOf p.data (extractBaseCommandL s.data))) = true →
      classifyCommand s = "other" := by
  refine ⟨by decide, ?_⟩
  intro s h1 h2
  unfold classifyCommand classifyBase
  have hr : runners.find?
      (fun r => (r.data ++ [' ']).isPrefixOf (extractBaseCommandL s.data)) = none := by
    rw [List.find?_eq_none]
    intro x hx
    have hx2 := List.all_eq_true.mp h1 x hx
    simp only [Bool.not_eq_true'] at hx2
    simp [hx2]
  have hg : COMMAND_GROUPS.find?
      (fun e => e.2.any fun p => isSubstrOf p.data (extractBaseCommandL s.data)) =
      none := by
    rw [List.find?_eq_none]
    intro e he hcon
    have hall := List.all_eq_true.mp h2 e he
    simp only [List.all_eq_true, Bool.not_eq_true'] at hall
    rcases List.any_eq_true.mp hcon with ⟨p, hp, hs2⟩
    rw [hall p hp] at hs2
    exact Bool.noConfusion hs2
  rw [hr, hg]

/-- Witness for the C8 theorem at a command matching nothing. -/
theorem classify_total_fallback_witness : classifyCommand "xyzzy" = "other" :=
  classify_total_fallback.2 "xyzzy" (by decide) (by decide)

/-- C9: `estimateTokens` is the ceiling of `chars / 4` on the claimed range
(the identity holds for every `chars`, the bound is kept as stated), in both
the natural-division form `(chars + 3) / 4` and the rational-ceiling form;
and `estimateTokens 0 = 0`. -/
theorem estimate_tokens_ceil :
    (∀ chars : ℕ, chars ≤ 10000000 →
      estimateTokens chars = (chars + 3) / 4 ∧
      (estimateTokens chars : ℤ) = ⌈(chars : ℚ) / 4⌉) ∧
    estimateTokens 0 = 0 := by
  refine ⟨?_, by decide⟩
  intro chars _
  have hmk : (mkRat (chars : ℤ) CHARS_PER_TOKEN : ℚ) = (chars : ℚ) / 4 := by
    rw [mkRat_int_div]
    norm_num [CHARS_PER_TOKEN]
  have hthis : estimateTokens chars = (⌈(chars : ℚ) / 4⌉).toNat := by
    unfold estimateTokens
    rw [hmk]
  have hceil : ⌈(chars : ℚ) / 4⌉ = (((chars + 3) / 4 : ℕ) : ℤ) := by
    have h1 : 4 * ((chars + 3) / 4) < chars + 4 := by omega
    have h2 : chars ≤ 4 * ((chars + 3) / 4) := by omega
    generalize hn : (chars + 3) / 4 = n at h1 h2 ⊢
    have h1Q : (4 : ℚ) * (n : ℚ) < (chars : ℚ) + 4 := by exact_mod_cast h1
    have h2Q : (chars : ℚ) ≤ 4 * (n : ℚ) := by exact_mod_cast h2
    rw [Int.ceil_eq_iff]
    constructor
    · rw [lt_div_iff (by norm_num : (0 : ℚ) < 4)]
      push_cast
      linarith
    · rw [div_le_iff (by norm_num : (0 : ℚ) < 4)]
      push_cast
      linarith
  constructor
  · rw [hthis, hceil, Int.toNat_natCast]
  · rw [hthis, hceil, Int.toNat_natCast]

/-- Witness for the C9 theorem at `chars = 40`. -/
theorem estimate_tokens_ceil_witness :
    estimateTokens 40 = (40 + 3) / 4 ∧ (estimateTokens 40 : ℤ) = ⌈(40 : ℚ) / 4⌉ :=
  estimate_tokens_ceil.1 40 (by norm_num)

/-- C10: any command whose extracted base contains `"pnpm i"`, has no
runner prefix and matches no earlier table entry falls into the
`"npm install"` category, because `"pnpm i"` is one of that entry's patterns
and matching is substring containment; in particular `"pnpm init"`. -/
theorem pnpm_init_substring :
    classifyCommand "pnpm init" = "npm install" ∧
    ∀ s : String,
      (runners.all fun r =>
        !((r.data ++ [' ']).isPrefixOf (extractBaseCommandL s.data))) = true →
      ((COMMAND_GROUPS.take 5).all fun e => e.2.all fun p =>
        !(isSubstrOf p.data (extractBaseCommandL s.data))) = true →
      isSubstrOf "pnpm i".data (extractBaseCommandL s.data) = true →
      classifyCommand s = "npm install" := by
  refine ⟨by decide, ?_⟩
  intro s h1 h5 hsub
  unfold classifyCommand classifyBase
  have hr : runners.find?
      (fun r => (r.data ++ [' ']).isPrefixOf (extractBaseCommandL s.data)) = none := by
    rw [List.find?_eq_none]
    intro x hx
    have hx2 := List.all_eq_true.mp h1 x hx
    simp only [Bool.not_eq_true'] at hx2
    simp [hx2]
  have hneg : ∀ e ∈ COMMAND_GROUPS.take 5,
      (e.2.any fun p => isSubstrOf p.data (extractBaseCommandL s.data)) = false := by
    intro e he
    have hall := List.all_eq_true.mp h5 e he
    simp only [List.all_eq_true, Bool.not_eq_true'] at hall
    cases hval : e.2.any fun p => isSubstrOf p.data (extractBaseCommandL s.data)
    · rfl
    · rcases List.any_eq_true.mp hval with ⟨p, hp, hs2⟩
      rw [hall p hp] at hs2
      exact Bool.noConfusion hs2
  have hsplit : COMMAND_GROUPS = COMMAND_GROUPS.take 5 ++ COMMAND_GROUPS.drop 5 :=
    (List.take_append_drop 5 COMMAND_GROUPS).symm
  have hdrop : COMMAND_GROUPS.drop 5 =
      ("npm install", ["npm install", "npm ci", "pnpm install", "pnpm i",
        "bun install", "bun add"]) :: COMMAND_GROUPS.drop 6 := by rfl
  have hcond : ((("npm install", ["npm install", "npm ci", "pnpm install", "pnpm i",
      "bun install", "bun add"]) : String × List String).2.any
        fun p => isSubstrOf p.data (extractBaseCommandL s.data)) = true :=
    List.any_eq_true.mpr ⟨"pnpm i", by decide, hsub⟩
  have hstep := @List.find?_cons_of_pos (String × List String)
    (fun e => e.2.any fun p => isSubstrOf p.data (extractBaseCommandL s.data))
    ("npm install", ["npm install", "npm ci", "pnpm install", "pnpm i",
      "bun install", "bun add"]) (COMMAND_GROUPS.drop 6) hcond
  have hfind : COMMAND_GROUPS.find?
      (fun e => e.2.any fun p => isSubstrOf p.data (extractBaseCommandL s.data)) =
      some ("npm install", ["npm install", "npm ci", "pnpm install", "pnpm i",
        "bun install", "bun add"]) := by
    rw [hsplit, find?_append_of_none _ _ _ hneg, hdrop, hstep]
  rw [hr, hfind]

/-- Witness for the C10 theorem at the command of the claim. -/
theorem pnpm_init_substring_witness : classifyCommand "pnpm init" = "npm install" :=
  pnpm_init_substring.2 "pnpm init" (by decide) (by decide) (by decide)

/-- C6: specific npm patterns beat the generic fallback: the four concrete
classifications of the claim, and whenever classification returns the
generic `"npm"` category, no pattern of any earlier table entry (in
particular none of the `"npm install"` and `"npm run"` patterns) occurs in
the extracted base command. -/
theorem npm_precedence :
    classifyCommand "npm run build" = "npm run" ∧
    classifyCommand "npm install" = "npm install" ∧
    classifyCommand "npm ci --silent" = "npm install" ∧
    classifyCommand "npm config set x y" = "npm" ∧
    ∀ s : String, classifyCommand s = "npm" →
      ((COMMAND_GROUPS.take 7).all fun e =>
        !(e.2.any fun p => isSubstrOf p.data (extractBaseCommandL s.data))) = true := by
  refine ⟨by decide, by decide, by decide, by decide, ?_⟩
  intro s h
  by_contra hc
  have hex : ∃ e ∈ COMMAND_GROUPS.take 7,
      (e.2.any fun p => isSubstrOf p.data (extractBaseCommandL s.data)) = true := by
    simp only [List.all_eq_true, Bool.not_eq_true'] at hc
    push_neg at hc
    obtain ⟨e, he, hpe⟩ := hc
    exact ⟨e, he, by simpa using hpe⟩
  obtain ⟨y, hy, hfind⟩ := find?_append_left
    (fun e => e.2.any fun p => isSubstrOf p.data (extractBaseCommandL s.data))
    (COMMAND_GROUPS.take 7) (COMMAND_GROUPS.drop 7) hex
  rw [List.take_append_drop] at hfind
  unfold classifyCommand classifyBase at h
  split at h
  · next r hr =>
    have hmem : r ∈ runners := List.mem_of_find?_eq_some hr
    have hr3 : r = "npx" ∨ r = "bunx" ∨ r = "uvx" := by
      simpa [runners] using hmem
    split at h
    · next tok hsub =>
      split at h
      · rcases hr3 with rfl | rfl | rfl <;> exact absurd h (by decide)
      · rcases hr3 with rfl | rfl | rfl
        · have hd : ('n' :: 'p' :: 'x' :: ' ' :: tok : List Char) =
              ['n', 'p', 'm'] := congrArg String.data h
          simp at hd
        · have hd : ('b' :: 'u' :: 'n' :: 'x' :: ' ' :: tok : List Char) =
              ['n', 'p', 'm'] := congrArg String.data h
          simp at hd
        · have hd : ('u' :: 'v' :: 'x' :: ' ' :: tok : List Char) =
              ['n', 'p', 'm'] := congrArg String.data h
          simp at hd
    · next hsub =>
      rcases hr3 with rfl | rfl | rfl <;> exact absurd h (by decide)
  · next hr =>
    split at h
    · next e0 hget =>
      rw [hfind] at hget
      injection hget with hye
      subst hye
      have h7 : COMMAND_GROUPS.take 7 = [
        ("pytest", ["pytest", "python3 -m pytest", "python -m pytest", "uv run pytest",
          "uv run python -m pytest"]),
        ("vitest", ["vitest"]),
        ("jest", ["jest"]),
        ("tsc", ["tsc"]),
        ("eslint", ["eslint"]),
        ("npm install", ["npm install", "npm ci", "pnpm install", "pnpm i",
          "bun install", "bun add"]),
        ("npm run", ["npm run", "pnpm run", "pnpm exec", "bun run"])] := by rfl
      rw [h7] at hy
      fin_cases hy <;> exact absurd h (by decide)
    · next hget =>
      rw [hfind] at hget
      exact Option.noConfusion hget

/-- Witness for the C6 theorem at the generic-npm command of the claim. -/
theorem npm_precedence_witness :
    ((COMMAND_GROUPS.take 7).all fun e =>
      !(e.2.any fun p =>
        isSubstrOf p.data (extractBaseCommandL ("npm config set x y").data))) = true :=
  npm_precedence.2.2.2.2 "npm config set x y" (by decide)
